import Mathlib

/-!
Verification of the concurrent execution core: a shallow embedding of
`src/concurrent_ctx.c` and `src/rules/async.c`, with theorems checking the
design document's claims about them.

Host API calls (RedisModule_OpenKey, RedisModule_CloseKey, the reopen
callbacks, string allocation) are modelled as events emitted into a trace,
with handles and string identities drawn from a fresh-id counter.
-/

/-- Events emitted by the SearchContext operations towards the host and the
registered reopen callbacks. -/
inductive CEvent where
  | tsLock : CEvent
  | tsUnlock : CEvent
  | closeKey (h : Nat) : CEvent
  | openKey (name : String) (flags : Nat) (h : Nat) : CEvent
  | cbCall (entry : Nat) (h : Nat) : CEvent
  deriving DecidableEq, Repr

/-- One tracked handle entry (`ConcurrentKeyCtx` in concurrent_ctx.h). The
`opts` bitmask is modelled as two booleans; `key` is the current host handle
(`none` models a NULL key pointer); `privdata` is opaque. -/
structure ConcurrentKeyCtx where
  key : Option Nat
  keyName : String
  keyFlags : Nat
  sharedKey : Bool
  sharedKeyString : Bool
  privdata : Nat
  deriving DecidableEq, Repr

/-- A `struct timespec` value from `clock_gettime`. -/
structure Timespec where
  tv_sec : Int
  tv_nsec : Int
  deriving DecidableEq, Repr

/-- The `ConcurrentSearchCtx` state. `nextHandle` models the host's supply of
fresh key handles returned by `RedisModule_OpenKey`. -/
structure ConcurrentSearchCtx where
  isLocked : Bool
  openKeys : List ConcurrentKeyCtx
  lastTime : Timespec
  ticker : Nat
  nextHandle : Nat
  deriving DecidableEq, Repr

/-- `ConcurrentSearch_CloseKeys`: for each tracked entry, if the key is
non-NULL and not shared, close it. The entries themselves are not modified. -/
def ConcurrentSearch_CloseKeys (ctx : ConcurrentSearchCtx) : List CEvent :=
  ctx.openKeys.filterMap fun k =>
    match k.key with
    | some h => if k.sharedKey then none else some (CEvent.closeKey h)
    | none => none

/-- Helper for `ConcurrentSearchCtx_ReopenKeys`: walk the entries; entry `i`
receives the freshly opened handle `h`, its shared flag is cleared, and its
reopen callback is invoked with the new handle. -/
def reopenKeysAux (i : Nat) (h : Nat) :
    List ConcurrentKeyCtx → List ConcurrentKeyCtx × List CEvent
  | [] => ([], [])
  | k :: rest =>
    let r := reopenKeysAux (i + 1) (h + 1) rest
    ({ k with key := some h, sharedKey := false } :: r.1,
      CEvent.openKey k.keyName k.keyFlags h :: CEvent.cbCall i h :: r.2)

/-- `ConcurrentSearchCtx_ReopenKeys`: reopen every tracked key by name and
flags, clear the shared flag, and call the reopen callback. -/
def ConcurrentSearchCtx_ReopenKeys (ctx : ConcurrentSearchCtx) :
    ConcurrentSearchCtx × List CEvent :=
  let r := reopenKeysAux 0 ctx.nextHandle ctx.openKeys
  ({ ctx with
      openKeys := r.1,
      nextHandle := ctx.nextHandle + ctx.openKeys.length }, r.2)

/-- `ConcurrentSearchCtx_Lock`: asserts the context is not already locked
(`none` models the assertion firing), acquires the host lock, and reopens
every tracked key. -/
def ConcurrentSearchCtx_Lock (ctx : ConcurrentSearchCtx) :
    Option (ConcurrentSearchCtx × List CEvent) :=
  if ctx.isLocked then none
  else
    let r := ConcurrentSearchCtx_ReopenKeys { ctx with isLocked := true }
    some (r.1, CEvent.tsLock :: r.2)

/-- `ConcurrentSearchCtx_Unlock`: close the non-shared tracked keys, release
the host lock, clear the locked flag. -/
def ConcurrentSearchCtx_Unlock (ctx : ConcurrentSearchCtx) :
    ConcurrentSearchCtx × List CEvent :=
  ({ ctx with isLocked := false },
    ConcurrentSearch_CloseKeys ctx ++ [CEvent.tsUnlock])

/-- `ConcurrentSearchCtx_ResetClock`: sample the monotonic clock into
`lastTime` and zero the ticker. -/
def ConcurrentSearchCtx_ResetClock (now : Timespec) (ctx : ConcurrentSearchCtx) :
    ConcurrentSearchCtx :=
  { ctx with lastTime := now, ticker := 0 }

/-- Modelled from the spec: `CONCURRENT_TIMEOUT_NS` is defined in
concurrent_ctx.h, which is not part of the sources; the design document gives
the yield budget as 100 ms, i.e. 10^8 ns. -/
def CONCURRENT_TIMEOUT_NS : Int := 100000000

/-- The elapsed-nanoseconds computation of `ConcurrentSearch_CheckTimer`. -/
def durationNS (now : Timespec) (ctx : ConcurrentSearchCtx) : Int :=
  1000000000 * (now.tv_sec - ctx.lastTime.tv_sec) +
    (now.tv_nsec - ctx.lastTime.tv_nsec)

/-- `ConcurrentSearch_CheckTimer`: if the budget is exceeded, unlock, relock
(which reopens every tracked key), reset the clock and return 1, else return
0. `now` is the sample taken at entry, `now2` the sample taken by the
embedded `ConcurrentSearchCtx_ResetClock` call. -/
def ConcurrentSearch_CheckTimer (now now2 : Timespec) (ctx : ConcurrentSearchCtx) :
    Option (Bool × ConcurrentSearchCtx × List CEvent) :=
  if durationNS now ctx > CONCURRENT_TIMEOUT_NS then
    let u := ConcurrentSearchCtx_Unlock ctx
    match ConcurrentSearchCtx_Lock u.1 with
    | none => none
    | some r =>
      some (true, ConcurrentSearchCtx_ResetClock now2 r.1, u.2 ++ r.2)
  else
    some (false, ctx, [])

/-- Number of reopen-callback invocations for tracked entry `j` in a trace. -/
def cbCount (j : Nat) : List CEvent → Nat
  | [] => 0
  | CEvent.cbCall i _ :: rest => (if i = j then 1 else 0) + cbCount j rest
  | _ :: rest => cbCount j rest

/-- The handle values `some h, some (h+1), ...` assigned by a reopen pass. -/
def handleSeq (h : Nat) : Nat → List (Option Nat)
  | 0 => []
  | n + 1 => some h :: handleSeq (h + 1) n

theorem cbCount_append (j : Nat) (a b : List CEvent) :
    cbCount j (a ++ b) = cbCount j a + cbCount j b := by
  induction a with
  | nil => simp [cbCount]
  | cons e rest ih => cases e <;> (simp [cbCount, ih]; try omega)

theorem cbCount_no_cb (j : Nat) (evs : List CEvent)
    (hno : ∀ i hh, CEvent.cbCall i hh ∉ evs) : cbCount j evs = 0 := by
  induction evs with
  | nil => rfl
  | cons e rest ih =>
    have ih2 : cbCount j rest = 0 :=
      ih fun i hh hm => hno i hh (List.mem_cons_of_mem _ hm)
    cases e with
    | cbCall i hh => exact absurd (List.mem_cons_self _ _) (hno i hh)
    | tsLock => simpa [cbCount] using ih2
    | tsUnlock => simpa [cbCount] using ih2
    | closeKey h => simpa [cbCount] using ih2
    | openKey n f h => simpa [cbCount] using ih2

theorem cbCount_closeKeys (j : Nat) (ctx : ConcurrentSearchCtx) :
    cbCount j (ConcurrentSearch_CloseKeys ctx) = 0 := by
  apply cbCount_no_cb
  intro i hh hmem
  simp only [ConcurrentSearch_CloseKeys, List.mem_filterMap] at hmem
  obtain ⟨k, -, hk⟩ := hmem
  cases hkey : k.key with
  | none => rw [hkey] at hk; simp at hk
  | some h =>
    rw [hkey] at hk
    by_cases hs : k.sharedKey <;> simp [hs] at hk

theorem cbCount_reopenKeysAux (j i h : Nat) (l : List ConcurrentKeyCtx) :
    cbCount j (reopenKeysAux i h l).2 =
      if i ≤ j ∧ j < i + l.length then 1 else 0 := by
  induction l generalizing i h with
  | nil =>
    simp only [reopenKeysAux, List.length_nil]
    rw [if_neg (by omega)]
    rfl
  | cons k rest ih =>
    simp only [reopenKeysAux, cbCount, ih (i + 1) (h + 1), List.length_cons]
    split_ifs <;> omega

theorem reopenKeysAux_map_keyName (i h : Nat) (l : List ConcurrentKeyCtx) :
    (reopenKeysAux i h l).1.map ConcurrentKeyCtx.keyName =
      l.map ConcurrentKeyCtx.keyName := by
  induction l generalizing i h with
  | nil => rfl
  | cons k rest ih => simp [reopenKeysAux, ih]

theorem reopenKeysAux_map_keyFlags (i h : Nat) (l : List ConcurrentKeyCtx) :
    (reopenKeysAux i h l).1.map ConcurrentKeyCtx.keyFlags =
      l.map ConcurrentKeyCtx.keyFlags := by
  induction l generalizing i h with
  | nil => rfl
  | cons k rest ih => simp [reopenKeysAux, ih]

theorem reopenKeysAux_map_privdata (i h : Nat) (l : List ConcurrentKeyCtx) :
    (reopenKeysAux i h l).1.map ConcurrentKeyCtx.privdata =
      l.map ConcurrentKeyCtx.privdata := by
  induction l generalizing i h with
  | nil => rfl
  | cons k rest ih => simp [reopenKeysAux, ih]

theorem reopenKeysAux_map_key (i h : Nat) (l : List ConcurrentKeyCtx) :
    (reopenKeysAux i h l).1.map ConcurrentKeyCtx.key = handleSeq h l.length := by
  induction l generalizing i h with
  | nil => rfl
  | cons k rest ih => simp [reopenKeysAux, handleSeq, ih]

theorem reopenKeysAux_length (i h : Nat) (l : List ConcurrentKeyCtx) :
    (reopenKeysAux i h l).1.length = l.length := by
  induction l generalizing i h with
  | nil => rfl
  | cons k rest ih => simp [reopenKeysAux, ih]

theorem handleSeq_ge (h n : Nat) :
    ∀ hh, some hh ∈ handleSeq h n → h ≤ hh := by
  induction n generalizing h with
  | zero => intro hh hm; simp [handleSeq] at hm
  | succ m ih =>
    intro hh hm
    simp only [handleSeq, List.mem_cons, Option.some.injEq] at hm
    rcases hm with hm | hm
    · omega
    · have := ih (h + 1) hh hm; omega

theorem handleSeq_mem_isSome (h n : Nat) :
    ∀ x ∈ handleSeq h n, ∃ hh, x = some hh ∧ h ≤ hh := by
  induction n generalizing h with
  | zero => intro x hm; simp [handleSeq] at hm
  | succ m ih =>
    intro x hm
    simp only [handleSeq, List.mem_cons] at hm
    rcases hm with hm | hm
    · exact ⟨h, hm, Nat.le_refl h⟩
    · obtain ⟨hh, hx, hle⟩ := ih (h + 1) x hm
      exact ⟨hh, hx, by omega⟩

theorem reopenKeysAux_events_mem (i h : Nat) (l : List ConcurrentKeyCtx) :
    ∀ j (hj : j < l.length),
      CEvent.openKey (l.get ⟨j, hj⟩).keyName (l.get ⟨j, hj⟩).keyFlags (h + j) ∈
          (reopenKeysAux i h l).2 ∧
        CEvent.cbCall (i + j) (h + j) ∈ (reopenKeysAux i h l).2 := by
  induction l generalizing i h with
  | nil => intro j hj; simp at hj
  | cons k rest ih =>
    intro j hj
    cases j with
    | zero =>
      simp [reopenKeysAux]
    | succ m =>
      have hm : m < rest.length := by simpa using hj
      obtain ⟨h1, h2⟩ := ih (i + 1) (h + 1) m hm
      constructor
      · simp only [reopenKeysAux, List.mem_cons, List.get_cons_succ]
        right; right
        have : h + 1 + m = h + (m + 1) := by omega
        rwa [this] at h1
      · simp only [reopenKeysAux, List.mem_cons]
        right; right
        have e1 : i + 1 + m = i + (m + 1) := by omega
        have e2 : h + 1 + m = h + (m + 1) := by omega
        rwa [e1, e2] at h2

/-- C2: for a locked SearchContext, `ConcurrentSearch_CheckTimer` yields iff
the elapsed monotonic time since the last clock reset exceeds the 100 ms
(10^8 ns) budget; on a yield it unlocks, relocks (invoking every tracked
entry's reopen callback exactly once in the emitted trace, and none for
indices beyond the tracked entries), and resets the clock; otherwise the
SearchContext is returned unchanged with no host interaction. -/
theorem C2_check_timer_yields_iff (now now2 : Timespec) (ctx : ConcurrentSearchCtx)
    (_hl : ctx.isLocked = true) :
    ∃ yielded ctx2 evs,
      ConcurrentSearch_CheckTimer now now2 ctx = some (yielded, ctx2, evs) ∧
      (yielded = true ↔ durationNS now ctx > CONCURRENT_TIMEOUT_NS) ∧
      (yielded = true →
        ctx2.isLocked = true ∧ ctx2.lastTime = now2 ∧ ctx2.ticker = 0 ∧
        (∀ j, j < ctx.openKeys.length → cbCount j evs = 1) ∧
        (∀ j, ctx.openKeys.length ≤ j → cbCount j evs = 0)) ∧
      (yielded = false → ctx2 = ctx ∧ evs = []) := by
  by_cases hd : durationNS now ctx > CONCURRENT_TIMEOUT_NS
  · refine ⟨true,
      ConcurrentSearchCtx_ResetClock now2
        (ConcurrentSearchCtx_ReopenKeys
          { ctx with isLocked := true }).1,
      (ConcurrentSearch_CloseKeys ctx ++ [CEvent.tsUnlock]) ++
        (CEvent.tsLock :: (reopenKeysAux 0 ctx.nextHandle ctx.openKeys).2),
      ?_, by simp [hd], ?_, by intro hcon; exact absurd hcon (by simp)⟩
    · unfold ConcurrentSearch_CheckTimer
      rw [if_pos hd]
      rfl
    · intro _hy
      refine ⟨rfl, rfl, rfl, ?_, ?_⟩
      · intro j hj
        rw [cbCount_append, cbCount_append, cbCount_closeKeys]
        have h1 : cbCount j [CEvent.tsUnlock] = 0 := rfl
        have h2 : cbCount j (CEvent.tsLock ::
            (reopenKeysAux 0 ctx.nextHandle ctx.openKeys).2) =
            cbCount j (reopenKeysAux 0 ctx.nextHandle ctx.openKeys).2 := rfl
        rw [h1, h2, cbCount_reopenKeysAux, if_pos ⟨Nat.zero_le j, by omega⟩]
      · intro j hj
        rw [cbCount_append, cbCount_append, cbCount_closeKeys]
        have h1 : cbCount j [CEvent.tsUnlock] = 0 := rfl
        have h2 : cbCount j (CEvent.tsLock ::
            (reopenKeysAux 0 ctx.nextHandle ctx.openKeys).2) =
            cbCount j (reopenKeysAux 0 ctx.nextHandle ctx.openKeys).2 := rfl
        rw [h1, h2, cbCount_reopenKeysAux, if_neg (by omega)]
  · refine ⟨false, ctx, [], ?_, by simp [hd], by intro hcon; simp at hcon,
      fun _ => ⟨rfl, rfl⟩⟩
    unfold ConcurrentSearch_CheckTimer
    rw [if_neg hd]

/-- The witness context used to instantiate the SearchContext theorems: a
locked context tracking one owned entry and one shared entry. -/
def ctxW : ConcurrentSearchCtx :=
  { isLocked := true,
    openKeys :=
      [{ key := some 3, keyName := "x", keyFlags := 1, sharedKey := false,
         sharedKeyString := false, privdata := 0 },
       { key := some 7, keyName := "y", keyFlags := 2, sharedKey := true,
         sharedKeyString := true, privdata := 1 }],
    lastTime := { tv_sec := 0, tv_nsec := 0 },
    ticker := 0,
    nextHandle := 10 }

theorem C2_check_timer_yields_iff_witness :
    ctxW.isLocked = true ∧
    ∃ yielded ctx2 evs,
      ConcurrentSearch_CheckTimer ⟨0, 200000000⟩ ⟨0, 200000001⟩ ctxW =
          some (yielded, ctx2, evs) ∧
      (yielded = true ↔
        durationNS ⟨0, 200000000⟩ ctxW > CONCURRENT_TIMEOUT_NS) ∧
      (yielded = true →
        ctx2.isLocked = true ∧ ctx2.lastTime = ⟨0, 200000001⟩ ∧
        ctx2.ticker = 0 ∧
        (∀ j, j < ctxW.openKeys.length → cbCount j evs = 1) ∧
        (∀ j, ctxW.openKeys.length ≤ j → cbCount j evs = 0)) ∧
      (yielded = false → ctx2 = ctxW ∧ evs = []) :=
  ⟨by decide, C2_check_timer_yields_iff ⟨0, 200000000⟩ ⟨0, 200000001⟩ ctxW (by decide)⟩

/-- C9: calling `ConcurrentSearchCtx_Lock` on an already locked context fires
the assertion (modelled by the operation returning `none`), and on an
unlocked context the assertion never fires (the operation succeeds). -/
theorem C9_double_lock_asserts (ctx : ConcurrentSearchCtx) :
    (ctx.isLocked = true → ConcurrentSearchCtx_Lock ctx = none) ∧
    (ctx.isLocked = false → (ConcurrentSearchCtx_Lock ctx).isSome = true) := by
  constructor
  · intro hl
    unfold ConcurrentSearchCtx_Lock
    rw [if_pos hl]
  · intro hl
    unfold ConcurrentSearchCtx_Lock
    rw [if_neg (by rw [hl]; exact Bool.false_ne_true)]
    rfl

theorem C9_double_lock_asserts_witness :
    ConcurrentSearchCtx_Lock ctxW = none ∧
    (ConcurrentSearchCtx_Lock { ctxW with isLocked := false }).isSome = true :=
  ⟨(C9_double_lock_asserts ctxW).1 (by decide),
    (C9_double_lock_asserts { ctxW with isLocked := false }).2 (by decide)⟩

/-- C5: from the locked state, Unlock followed by Lock succeeds and leaves
the tracked entries unchanged in number, key name, open flags and private
data, while every entry's handle is a freshly opened one (different from
every handle stored before the round trip) obtained by reopening the stored
name with the stored flags, with the reopen callback invoked on it. -/
theorem C5_unlock_lock_roundtrip (ctx : ConcurrentSearchCtx)
    (_hl : ctx.isLocked = true)
    (hfresh : ∀ k ∈ ctx.openKeys, ∀ hh, k.key = some hh → hh < ctx.nextHandle) :
    ∃ ctx2 evs,
      ConcurrentSearchCtx_Lock (ConcurrentSearchCtx_Unlock ctx).1 =
          some (ctx2, evs) ∧
      ctx2.isLocked = true ∧
      ctx2.openKeys.length = ctx.openKeys.length ∧
      ctx2.openKeys.map ConcurrentKeyCtx.keyName =
        ctx.openKeys.map ConcurrentKeyCtx.keyName ∧
      ctx2.openKeys.map ConcurrentKeyCtx.keyFlags =
        ctx.openKeys.map ConcurrentKeyCtx.keyFlags ∧
      ctx2.openKeys.map ConcurrentKeyCtx.privdata =
        ctx.openKeys.map ConcurrentKeyCtx.privdata ∧
      ctx2.openKeys.map ConcurrentKeyCtx.key =
        handleSeq ctx.nextHandle ctx.openKeys.length ∧
      (∀ k2 ∈ ctx2.openKeys, ∀ k ∈ ctx.openKeys, k2.key ≠ k.key) ∧
      (∀ j (hj : j < ctx.openKeys.length),
        CEvent.openKey (ctx.openKeys.get ⟨j, hj⟩).keyName
            (ctx.openKeys.get ⟨j, hj⟩).keyFlags (ctx.nextHandle + j) ∈ evs ∧
          CEvent.cbCall j (ctx.nextHandle + j) ∈ evs) := by
  refine ⟨(ConcurrentSearchCtx_ReopenKeys { ctx with isLocked := true }).1,
      CEvent.tsLock :: (reopenKeysAux 0 ctx.nextHandle ctx.openKeys).2,
      rfl, rfl,
      reopenKeysAux_length 0 ctx.nextHandle ctx.openKeys,
      reopenKeysAux_map_keyName 0 ctx.nextHandle ctx.openKeys,
      reopenKeysAux_map_keyFlags 0 ctx.nextHandle ctx.openKeys,
      reopenKeysAux_map_privdata 0 ctx.nextHandle ctx.openKeys,
      reopenKeysAux_map_key 0 ctx.nextHandle ctx.openKeys,
      ?_, ?_⟩
  · intro k2 hk2 k hk
    have hmap : k2.key ∈ handleSeq ctx.nextHandle ctx.openKeys.length := by
      rw [← reopenKeysAux_map_key 0 ctx.nextHandle ctx.openKeys]
      exact List.mem_map_of_mem _ hk2
    obtain ⟨hh, hk2key, hge⟩ :=
      handleSeq_mem_isSome ctx.nextHandle ctx.openKeys.length _ hmap
    rw [hk2key]
    cases hkold : k.key with
    | none => simp
    | some o =>
      have hlt := hfresh k hk o hkold
      simp only [Ne, Option.some.injEq]
      omega
  · intro j hj
    obtain ⟨h1, h2⟩ :=
      reopenKeysAux_events_mem 0 ctx.nextHandle ctx.openKeys j hj
    rw [Nat.zero_add] at h2
    exact ⟨List.mem_cons_of_mem _ h1, List.mem_cons_of_mem _ h2⟩

theorem C5_unlock_lock_roundtrip_witness :
    ctxW.isLocked = true ∧
    (∀ k ∈ ctxW.openKeys, ∀ hh, k.key = some hh → hh < ctxW.nextHandle) ∧
    ∃ ctx2 evs,
      ConcurrentSearchCtx_Lock (ConcurrentSearchCtx_Unlock ctxW).1 =
          some (ctx2, evs) ∧
      ctx2.isLocked = true ∧
      ctx2.openKeys.length = ctxW.openKeys.length ∧
      ctx2.openKeys.map ConcurrentKeyCtx.keyName =
        ctxW.openKeys.map ConcurrentKeyCtx.keyName ∧
      ctx2.openKeys.map ConcurrentKeyCtx.keyFlags =
        ctxW.openKeys.map ConcurrentKeyCtx.keyFlags ∧
      ctx2.openKeys.map ConcurrentKeyCtx.privdata =
        ctxW.openKeys.map ConcurrentKeyCtx.privdata ∧
      ctx2.openKeys.map ConcurrentKeyCtx.key =
        handleSeq ctxW.nextHandle ctxW.openKeys.length ∧
      (∀ k2 ∈ ctx2.openKeys, ∀ k ∈ ctxW.openKeys, k2.key ≠ k.key) ∧
      (∀ j (hj : j < ctxW.openKeys.length),
        CEvent.openKey (ctxW.openKeys.get ⟨j, hj⟩).keyName
            (ctxW.openKeys.get ⟨j, hj⟩).keyFlags (ctxW.nextHandle + j) ∈ evs ∧
          CEvent.cbCall j (ctxW.nextHandle + j) ∈ evs) :=
  ⟨by decide, by decide,
    C5_unlock_lock_roundtrip ctxW (by decide) (by decide)⟩

/-- The per-entry close decision of `ConcurrentSearch_CloseKeys`, as a list
of events over an entry list. -/
def closeEventsOf (l : List ConcurrentKeyCtx) : List CEvent :=
  l.filterMap fun k =>
    match k.key with
    | some h => if k.sharedKey then none else some (CEvent.closeKey h)
    | none => none

theorem ConcurrentSearch_CloseKeys_eq_closeEventsOf (ctx : ConcurrentSearchCtx) :
    ConcurrentSearch_CloseKeys ctx = closeEventsOf ctx.openKeys := rfl

theorem closeEventsOf_mem_iff (l : List ConcurrentKeyCtx) (h : Nat) :
    CEvent.closeKey h ∈ closeEventsOf l ↔
      ∃ k ∈ l, k.key = some h ∧ k.sharedKey = false := by
  simp only [closeEventsOf, List.mem_filterMap]
  constructor
  · rintro ⟨k, hk, he⟩
    refine ⟨k, hk, ?_⟩
    cases hkey : k.key with
    | none => rw [hkey] at he; simp at he
    | some o =>
      rw [hkey] at he
      by_cases hs : k.sharedKey
      · simp [hs] at he
      · have hs' : k.sharedKey = false := by simpa using hs
        rw [hs'] at he
        simp only [Bool.false_eq_true, if_false, Option.some.injEq,
          CEvent.closeKey.injEq] at he
        exact ⟨by rw [he], hs'⟩
  · rintro ⟨k, hk, hkey, hs⟩
    exact ⟨k, hk, by rw [hkey]; simp [hs]⟩

theorem closeEventsOf_not_mem_shared (l : List ConcurrentKeyCtx)
    (hnd : (l.filterMap ConcurrentKeyCtx.key).Nodup) :
    ∀ k ∈ l, k.sharedKey = true → ∀ h, k.key = some h →
      CEvent.closeKey h ∉ closeEventsOf l := by
  induction l with
  | nil => intro k hk; simp at hk
  | cons k0 rest ih =>
    intro k hk hs h hkey hmem
    cases hk0 : k0.key with
    | none =>
      have hnd' : (rest.filterMap ConcurrentKeyCtx.key).Nodup := by
        rwa [List.filterMap_cons, hk0] at hnd
      have hclose : closeEventsOf (k0 :: rest) = closeEventsOf rest := by
        simp [closeEventsOf, List.filterMap_cons, hk0]
      rcases List.mem_cons.mp hk with rfl | hkrest
      · rw [hk0] at hkey; exact Option.noConfusion hkey
      · exact ih hnd' k hkrest hs h hkey (hclose ▸ hmem)
    | some h0 =>
      have hnd2 : h0 ∉ rest.filterMap ConcurrentKeyCtx.key ∧
          (rest.filterMap ConcurrentKeyCtx.key).Nodup := by
        rw [List.filterMap_cons, hk0] at hnd
        exact ⟨(List.nodup_cons.mp hnd).1, (List.nodup_cons.mp hnd).2⟩
      rcases List.mem_cons.mp hk with rfl | hkrest
      · -- the shared entry is the head; it contributes no close event
        have heq : h = h0 := Option.some.inj (hkey.symm.trans hk0)
        have hclose : closeEventsOf (k :: rest) = closeEventsOf rest := by
          simp [closeEventsOf, List.filterMap_cons, hkey, hs]
        rw [hclose] at hmem
        obtain ⟨k', hk', hkey', -⟩ := (closeEventsOf_mem_iff rest h).mp hmem
        have : h ∈ rest.filterMap ConcurrentKeyCtx.key :=
          List.mem_filterMap.mpr ⟨k', hk', hkey'⟩
        rw [heq] at this
        exact hnd2.1 this
      · -- the shared entry is in the tail
        have hhrest : h ∈ rest.filterMap ConcurrentKeyCtx.key :=
          List.mem_filterMap.mpr ⟨k, hkrest, hkey⟩
        have hne : h ≠ h0 := fun he => hnd2.1 (he ▸ hhrest)
        by_cases hs0 : k0.sharedKey
        · have hclose : closeEventsOf (k0 :: rest) = closeEventsOf rest := by
            simp [closeEventsOf, List.filterMap_cons, hk0, hs0]
          exact ih hnd2.2 k hkrest hs h hkey (hclose ▸ hmem)
        · have hclose : closeEventsOf (k0 :: rest) =
              CEvent.closeKey h0 :: closeEventsOf rest := by
            simp [closeEventsOf, List.filterMap_cons, hk0, hs0]
          rw [hclose] at hmem
          rcases List.mem_cons.mp hmem with habs | hmem'
          · exact hne (CEvent.closeKey.inj habs)
          · exact ih hnd2.2 k hkrest hs h hkey hmem'

/-- C6: during unlock, the context closes exactly the tracked handles that
are non-null with the shared flag clear; under distinctness of the stored
handles, no close event is emitted for the handle of any shared entry. -/
theorem C6_unlock_closes_exactly_nonshared (ctx : ConcurrentSearchCtx)
    (hnd : (ctx.openKeys.filterMap ConcurrentKeyCtx.key).Nodup) :
    (∀ h, CEvent.closeKey h ∈ (ConcurrentSearchCtx_Unlock ctx).2 ↔
        ∃ k ∈ ctx.openKeys, k.key = some h ∧ k.sharedKey = false) ∧
    (∀ k ∈ ctx.openKeys, k.sharedKey = true → ∀ h, k.key = some h →
      CEvent.closeKey h ∉ (ConcurrentSearchCtx_Unlock ctx).2) := by
  have hev : (ConcurrentSearchCtx_Unlock ctx).2 =
      closeEventsOf ctx.openKeys ++ [CEvent.tsUnlock] := rfl
  constructor
  · intro h
    rw [hev, List.mem_append]
    constructor
    · rintro (hm | hm)
      · exact (closeEventsOf_mem_iff ctx.openKeys h).mp hm
      · simp at hm
    · intro hex
      exact Or.inl ((closeEventsOf_mem_iff ctx.openKeys h).mpr hex)
  · intro k hk hs h hkey hmem
    rw [hev, List.mem_append] at hmem
    rcases hmem with hm | hm
    · exact closeEventsOf_not_mem_shared ctx.openKeys hnd k hk hs h hkey hm
    · simp at hm

theorem C6_unlock_closes_exactly_nonshared_witness :
    (ctxW.openKeys.filterMap ConcurrentKeyCtx.key).Nodup ∧
    ((∀ h, CEvent.closeKey h ∈ (ConcurrentSearchCtx_Unlock ctxW).2 ↔
        ∃ k ∈ ctxW.openKeys, k.key = some h ∧ k.sharedKey = false) ∧
      (∀ k ∈ ctxW.openKeys, k.sharedKey = true → ∀ h, k.key = some h →
        CEvent.closeKey h ∉ (ConcurrentSearchCtx_Unlock ctxW).2)) :=
  ⟨by decide, C6_unlock_closes_exactly_nonshared ctxW (by decide)⟩

/-- A `RedisModuleString`: `sid` models the allocation identity of the
string object, `val` its character content. -/
structure RMString where
  sid : Nat
  val : String
  deriving DecidableEq, Repr

/-- `RedisModule_CreateStringFromString`: allocate a new string object with
the same contents. `alloc` is the host's fresh-identity counter. -/
def RedisModule_CreateStringFromString (alloc : Nat) (s : RMString) :
    Nat × RMString :=
  (alloc + 1, { sid := alloc, val := s.val })

/-- The argument-copy loop of `ConcurrentSearch_HandleRedisCommandEx`:
`cmdCtx->argv[i] = RedisModule_CreateStringFromString(cmdCtx->ctx, argv[i])`. -/
def copyArgs (alloc : Nat) : List RMString → Nat × List RMString
  | [] => (alloc, [])
  | s :: rest =>
    let c := RedisModule_CreateStringFromString alloc s
    let r := copyArgs c.1 rest
    (r.1, c.2 :: r.2)

/-- The `ConcurrentCmdCtx` record handed to the worker thread. `bc` is the
blocked-client token, `tsctx` the thread-safe host context obtained from it,
`argvId` the allocation identity of the fresh argument vector. -/
structure ConcurrentCmdCtx where
  bc : Nat
  tsctx : Nat
  argvId : Nat
  argv : List RMString
  argc : Nat
  options : Nat
  deriving DecidableEq, Repr

/-- `ConcurrentSearch_HandleRedisCommandEx`: block the client, derive a new
thread-safe context, and deep-copy the argument vector into a freshly
allocated vector of freshly allocated strings. `alloc` is the host's
fresh-identity counter; `argvId` identifies the caller's vector. -/
def ConcurrentSearch_HandleRedisCommandEx (alloc : Nat) (options : Nat)
    (argv : List RMString) : Nat × ConcurrentCmdCtx :=
  let bc := alloc
  let tsctx := alloc + 1
  let vec := alloc + 2
  let r := copyArgs (alloc + 3) argv
  (r.1,
    { bc := bc, tsctx := tsctx, argvId := vec, argv := r.2,
      argc := argv.length, options := options })

theorem copyArgs_map_val (alloc : Nat) (argv : List RMString) :
    (copyArgs alloc argv).2.map RMString.val = argv.map RMString.val := by
  induction argv generalizing alloc with
  | nil => rfl
  | cons s rest ih =>
    simp [copyArgs, RedisModule_CreateStringFromString, ih]

theorem copyArgs_sid_ge (alloc : Nat) (argv : List RMString) :
    ∀ s ∈ (copyArgs alloc argv).2, alloc ≤ s.sid := by
  induction argv generalizing alloc with
  | nil => intro s hs; simp [copyArgs] at hs
  | cons a rest ih =>
    intro s hs
    simp only [copyArgs, RedisModule_CreateStringFromString,
      List.mem_cons] at hs
    rcases hs with rfl | hs
    · exact Nat.le_refl _
    · have := ih (alloc + 1) s hs
      omega

/-- C8: for every dispatch, the handler's record holds a vector distinct by
identity from the caller's (given the caller's vector and strings predate
the dispatch in allocation order), whose strings are value-equal copies of
the caller's, each a fresh allocation distinct from every caller string, and
the record is bound to a freshly derived thread-safe host context. -/
theorem C8_dispatch_deep_copies_args (alloc options argvId : Nat)
    (argv : List RMString)
    (hvec : argvId < alloc)
    (hstr : ∀ s ∈ argv, s.sid < alloc) :
    (ConcurrentSearch_HandleRedisCommandEx alloc options argv).2.argv.map
        RMString.val = argv.map RMString.val ∧
    (ConcurrentSearch_HandleRedisCommandEx alloc options argv).2.argc =
      argv.length ∧
    (ConcurrentSearch_HandleRedisCommandEx alloc options argv).2.argvId ≠
      argvId ∧
    (∀ s2 ∈ (ConcurrentSearch_HandleRedisCommandEx alloc options argv).2.argv,
      ∀ s ∈ argv, s2.sid ≠ s.sid) ∧
    alloc ≤ (ConcurrentSearch_HandleRedisCommandEx alloc options argv).2.tsctx := by
  refine ⟨copyArgs_map_val (alloc + 3) argv, rfl, ?_, ?_, by
    show alloc ≤ alloc + 1; omega⟩
  · show alloc + 2 ≠ argvId
    omega
  · intro s2 hs2 s hs
    have h2 := copyArgs_sid_ge (alloc + 3) argv s2 hs2
    have h1 := hstr s hs
    omega

theorem C8_dispatch_deep_copies_args_witness :
    (1 < 10 ∧ (∀ s ∈ [RMString.mk 4 "FT.SEARCH", RMString.mk 5 "idx"],
        s.sid < 10)) ∧
    ((ConcurrentSearch_HandleRedisCommandEx 10 0
        [RMString.mk 4 "FT.SEARCH", RMString.mk 5 "idx"]).2.argv.map
          RMString.val =
        [RMString.mk 4 "FT.SEARCH", RMString.mk 5 "idx"].map RMString.val ∧
      (ConcurrentSearch_HandleRedisCommandEx 10 0
        [RMString.mk 4 "FT.SEARCH", RMString.mk 5 "idx"]).2.argc =
        [RMString.mk 4 "FT.SEARCH", RMString.mk 5 "idx"].length ∧
      (ConcurrentSearch_HandleRedisCommandEx 10 0
        [RMString.mk 4 "FT.SEARCH", RMString.mk 5 "idx"]).2.argvId ≠ 1 ∧
      (∀ s2 ∈ (ConcurrentSearch_HandleRedisCommandEx 10 0
          [RMString.mk 4 "FT.SEARCH", RMString.mk 5 "idx"]).2.argv,
        ∀ s ∈ [RMString.mk 4 "FT.SEARCH", RMString.mk 5 "idx"],
          s2.sid ≠ s.sid) ∧
      10 ≤ (ConcurrentSearch_HandleRedisCommandEx 10 0
        [RMString.mk 4 "FT.SEARCH", RMString.mk 5 "idx"]).2.tsctx) :=
  ⟨⟨by decide, by decide⟩,
    C8_dispatch_deep_copies_args 10 0 1
      [RMString.mk 4 "FT.SEARCH", RMString.mk 5 "idx"]
      (by decide) (by decide)⟩

/-- The relevant fields of `RSGlobalConfig` (defined outside the sources;
consumed by `ConcurrentSearch_ThreadPoolStart`). -/
structure RSConfig where
  searchPoolSize : Int
  indexPoolSize : Int
  poolSizeNoAuto : Bool
  deriving DecidableEq, Repr

/-- The pool registry: `threadpools_g` (`none` models the NULL pointer;
pools are recorded by their thread count) and the two well-known pool
identifiers, initialized to -1. -/
structure PoolState where
  threadpools_g : Option (List Int)
  CONCURRENT_POOL_SEARCH : Int
  CONCURRENT_POOL_INDEX : Int
  deriving DecidableEq, Repr

/-- The process-start values of the pool registry globals. -/
def poolStateInit : PoolState :=
  { threadpools_g := none, CONCURRENT_POOL_SEARCH := -1,
    CONCURRENT_POOL_INDEX := -1 }

/-- `ConcurrentSearch_CreatePool`: lazily allocate the registry array,
append a pool of `numThreads` threads, return its identifier (the previous
array length). -/
def ConcurrentSearch_CreatePool (numThreads : Int) (s : PoolState) :
    Int × PoolState :=
  let cur := s.threadpools_g.getD []
  ((cur.length : Int), { s with threadpools_g := some (cur ++ [numThreads]) })

/-- `ConcurrentSearch_ThreadPoolStart`: on first call create the search pool
and then the index pool (auto-sized to the online processor count unless
disabled, with the configured fallback when detection is off or fails);
later calls are no-ops. `sysconfProcs` is the value returned by
`sysconf(_SC_NPROCESSORS_ONLN)`. -/
def ConcurrentSearch_ThreadPoolStart (cfg : RSConfig) (sysconfProcs : Int)
    (s : PoolState) : PoolState :=
  if s.CONCURRENT_POOL_SEARCH = -1 then
    let r1 := ConcurrentSearch_CreatePool cfg.searchPoolSize s
    let s1 := { r1.2 with CONCURRENT_POOL_SEARCH := r1.1 }
    let numProcs : Int := if ¬cfg.poolSizeNoAuto then sysconfProcs else 0
    let numProcs2 : Int := if numProcs < 1 then cfg.indexPoolSize else numProcs
    let r2 := ConcurrentSearch_CreatePool numProcs2 s1
    { r2.2 with CONCURRENT_POOL_INDEX := r2.1 }
  else
    s

theorem threadPoolStart_noop (cfg : RSConfig) (procs : Int) (s : PoolState)
    (h : s.CONCURRENT_POOL_SEARCH ≠ -1) :
    ConcurrentSearch_ThreadPoolStart cfg procs s = s := by
  unfold ConcurrentSearch_ThreadPoolStart
  rw [if_neg h]

/-- C10: from the process-start state, the first `ThreadPoolStart` call
creates the search pool (identifier 0) and then the index pool (identifier
1), in that order in the registry; and the operation is idempotent: a
second call, under any configuration and processor count, leaves the
registry and both well-known identifiers unchanged. -/
theorem C10_thread_pool_start_idempotent (cfg : RSConfig) (sysconfProcs : Int) :
    (ConcurrentSearch_ThreadPoolStart cfg sysconfProcs
        poolStateInit).CONCURRENT_POOL_SEARCH = 0 ∧
    (ConcurrentSearch_ThreadPoolStart cfg sysconfProcs
        poolStateInit).CONCURRENT_POOL_INDEX = 1 ∧
    (ConcurrentSearch_ThreadPoolStart cfg sysconfProcs
        poolStateInit).threadpools_g =
      some [cfg.searchPoolSize,
        if (if ¬cfg.poolSizeNoAuto then sysconfProcs else 0) < 1 then
          cfg.indexPoolSize
        else (if ¬cfg.poolSizeNoAuto then sysconfProcs else 0)] ∧
    (∀ (cfg2 : RSConfig) (procs2 : Int) (s : PoolState),
      ConcurrentSearch_ThreadPoolStart cfg2 procs2
          (ConcurrentSearch_ThreadPoolStart cfg sysconfProcs s) =
        ConcurrentSearch_ThreadPoolStart cfg sysconfProcs s) := by
  refine ⟨rfl, rfl, ?_, ?_⟩
  · simp [ConcurrentSearch_ThreadPoolStart, ConcurrentSearch_CreatePool,
      poolStateInit]
  · intro cfg2 procs2 s
    by_cases h1 : s.CONCURRENT_POOL_SEARCH = -1
    · have hs1 : (ConcurrentSearch_ThreadPoolStart cfg sysconfProcs
          s).CONCURRENT_POOL_SEARCH =
          ((s.threadpools_g.getD []).length : Int) := by
        unfold ConcurrentSearch_ThreadPoolStart
        rw [if_pos h1]
        rfl
      have hne : (ConcurrentSearch_ThreadPoolStart cfg sysconfProcs
          s).CONCURRENT_POOL_SEARCH ≠ -1 := by
        rw [hs1]; omega
      exact threadPoolStart_noop cfg2 procs2 _ hne
    · rw [threadPoolStart_noop cfg sysconfProcs s h1]
      exact threadPoolStart_noop cfg2 procs2 s h1

/-- A `RuleIndexableDocument`: the retained key string and the attribute set
(`iia`, opaque) computed by the matching phase. -/
structure RuleIndexableDocument where
  kstr : String
  iia : Nat
  deriving DecidableEq, Repr

/-- Modelled from the spec: the redis `dict` keyed by key string (dict.h is
not in the sources); the spec describes it as a mapping from document key to
RuleIndexableDocument with unique keys. -/
abbrev DocDict := List (String × RuleIndexableDocument)

/-- Modelled from the spec: `dictAdd` fails (`none`, i.e. not DICT_OK) when
the key is already present, otherwise stores the new binding. -/
def dictAdd (d : DocDict) (k : String) (v : RuleIndexableDocument) :
    Option DocDict :=
  if d.any fun e => e.1 == k then none else some (d ++ [(k, v)])

/-- Modelled from the spec: `dictSize` is the number of stored bindings. -/
def dictSize (d : DocDict) : Nat := d.length

/-- A `SpecDocQueue`: the live dict, the SDQ_S_PENDING and SDQ_S_PROCESSING
bits of `state`, and the in-flight count `nactive`. -/
structure SpecDocQueue where
  entries : DocDict
  statePending : Bool
  stateProcessing : Bool
  nactive : Nat
  deriving DecidableEq, Repr

/-- The state of a freshly created `SpecDocQueue` (zeroed allocation). -/
def emptySDQ : SpecDocQueue :=
  { entries := [], statePending := false, stateProcessing := false,
    nactive := 0 }

/-- Allocator/host events emitted by the AsyncIndexQueue operations. -/
inductive AEvent where
  | retainString (k : String) : AEvent
  | freeString (k : String) : AEvent
  | freeRid (rid : RuleIndexableDocument) : AEvent
  | increfSpec (spec : Nat) : AEvent
  | decrefSpec (spec : Nat) : AEvent
  | signalCond : AEvent
  deriving DecidableEq, Repr

/-- The shared state of the `AsyncIndexQueue`: the global pending list (by
spec id, ids model the `SpecDocQueue` pointers), the per-spec queues, and
the queue currently held by the worker between selection and end of batch. -/
structure AIQState where
  pending : List Nat
  queues : List (Nat × SpecDocQueue)
  procQ : Option Nat
  deriving DecidableEq, Repr

/-- Lookup of a spec's queue record. -/
def qlookup : List (Nat × SpecDocQueue) → Nat → Option SpecDocQueue
  | [], _ => none
  | e :: rest, q => if e.1 = q then some e.2 else qlookup rest q

/-- Store a spec's queue record (replace or insert). -/
def qset : List (Nat × SpecDocQueue) → Nat → SpecDocQueue →
    List (Nat × SpecDocQueue)
  | [], q, dq => [(q, dq)]
  | e :: rest, q, dq =>
    if e.1 = q then (q, dq) :: rest else e :: qset rest q dq

/-- The spec's queue, lazily created (`SpecDocQueue_Create`) when absent. -/
def getQ (s : AIQState) (q : Nat) : SpecDocQueue :=
  (qlookup s.queues q).getD emptySDQ

theorem qlookup_qset_self (l : List (Nat × SpecDocQueue)) (q : Nat)
    (dq : SpecDocQueue) : qlookup (qset l q dq) q = some dq := by
  induction l with
  | nil => simp [qset, qlookup]
  | cons e rest ih =>
    by_cases he : e.1 = q
    · simp [qset, he, qlookup]
    · simp [qset, he, qlookup, ih]

theorem qlookup_qset_ne (l : List (Nat × SpecDocQueue)) (q q' : Nat)
    (dq : SpecDocQueue) (h : q' ≠ q) :
    qlookup (qset l q dq) q' = qlookup l q' := by
  induction l with
  | nil =>
    simp only [qset, qlookup]
    rw [if_neg (by omega)]
  | cons e rest ih =>
    by_cases he : e.1 = q
    · subst he
      simp only [qset, if_pos rfl, qlookup]
      rw [if_neg (by omega), if_neg (by omega)]
    · simp only [qset, if_neg he, qlookup]
      by_cases he' : e.1 = q'
      · rw [if_pos he', if_pos he']
      · rw [if_neg he', if_neg he', ih]

theorem qset_map_fst (l : List (Nat × SpecDocQueue)) (q : Nat)
    (dq : SpecDocQueue) :
    (qset l q dq).map Prod.fst =
      if q ∈ l.map Prod.fst then l.map Prod.fst
      else l.map Prod.fst ++ [q] := by
  induction l with
  | nil => simp [qset]
  | cons e rest ih =>
    by_cases he : e.1 = q
    · simp [qset, he]
    · simp only [qset, if_neg he, List.map_cons, ih, List.mem_cons]
      by_cases hm : q ∈ rest.map Prod.fst
      · rw [if_pos hm, if_pos (Or.inr hm)]
      · rw [if_neg hm, if_neg (by rintro (h1 | h2); exact he h1.symm; exact hm h2)]
        simp

theorem qset_keys_nodup (l : List (Nat × SpecDocQueue)) (q : Nat)
    (dq : SpecDocQueue) (hnd : (l.map Prod.fst).Nodup) :
    ((qset l q dq).map Prod.fst).Nodup := by
  rw [qset_map_fst]
  by_cases hm : q ∈ l.map Prod.fst
  · rwa [if_pos hm]
  · rw [if_neg hm]
    rw [List.nodup_append]
    exact ⟨hnd, List.nodup_singleton q, by
      intro x hx hx2
      simp only [List.mem_singleton] at hx2
      exact hm (hx2 ▸ hx)⟩

theorem mem_qset (l : List (Nat × SpecDocQueue)) (q : Nat)
    (dq : SpecDocQueue) (e : Nat × SpecDocQueue)
    (hnd : (l.map Prod.fst).Nodup) (he : e ∈ qset l q dq) :
    e = (q, dq) ∨ (e ∈ l ∧ e.1 ≠ q) := by
  induction l with
  | nil =>
    simp only [qset, List.mem_singleton] at he
    exact Or.inl he
  | cons a rest ih =>
    have hnd' : (rest.map Prod.fst).Nodup := (List.nodup_cons.mp hnd).2
    by_cases ha : a.1 = q
    · rw [qset, if_pos ha] at he
      rcases List.mem_cons.mp he with rfl | hm
      · exact Or.inl rfl
      · refine Or.inr ⟨List.mem_cons_of_mem _ hm, ?_⟩
        intro hq
        have : e.1 ∈ rest.map Prod.fst := List.mem_map_of_mem _ hm
        rw [hq, ← ha] at this
        exact (List.nodup_cons.mp hnd).1 this
    · rw [qset, if_neg ha] at he
      rcases List.mem_cons.mp he with rfl | hm
      · exact Or.inr ⟨List.mem_cons_self _ _, ha⟩
      · rcases ih hnd' hm with h1 | ⟨h2, h3⟩
        · exact Or.inl h1
        · exact Or.inr ⟨List.mem_cons_of_mem _ h2, h3⟩

theorem qlookup_mem (l : List (Nat × SpecDocQueue)) (q : Nat)
    (dq : SpecDocQueue) (h : qlookup l q = some dq) : (q, dq) ∈ l := by
  induction l with
  | nil => simp [qlookup] at h
  | cons e rest ih =>
    by_cases he : e.1 = q
    · rw [qlookup, if_pos he] at h
      have : e = (q, dq) := by
        cases e
        simp only at he
        simp only [Option.some.injEq] at h
        simp [he, h]
      exact this ▸ List.mem_cons_self _ _
    · rw [qlookup, if_neg he] at h
      exact List.mem_cons_of_mem _ (ih h)

/-- `AIQ_Submit` (the part after building the rid and retaining the key):
under the queue mutex, `dictAdd` the rid into the spec queue's dict; on
failure free the new rid and release the key string and return with nothing
else changed; on success, if the queue is neither PENDING nor PROCESSING,
append it to the global pending list, set PENDING and take a spec
reference; finally signal the worker when the queue is not PROCESSING and
the dict has reached the batch size. -/
def AIQ_Submit (batchSize : Nat) (s : AIQState) (spec : Nat) (kstr : String)
    (iia : Nat) : AIQState × List AEvent :=
  let rid : RuleIndexableDocument := { kstr := kstr, iia := iia }
  let dq := getQ s spec
  match dictAdd dq.entries kstr rid with
  | none =>
    (s, [AEvent.retainString kstr, AEvent.freeRid rid, AEvent.freeString kstr])
  | some d2 =>
    let nqueued := dictSize d2
    let signalEvs : List AEvent :=
      if dq.stateProcessing = false ∧ nqueued ≥ batchSize then
        [AEvent.signalCond]
      else []
    if dq.statePending = false ∧ dq.stateProcessing = false then
      ({ s with
          pending := s.pending ++ [spec],
          queues := qset s.queues spec
            { dq with entries := d2, statePending := true } },
        [AEvent.retainString kstr, AEvent.increfSpec spec] ++ signalEvs)
    else
      ({ s with queues := qset s.queues spec { dq with entries := d2 } },
        [AEvent.retainString kstr] ++ signalEvs)

/-- The comparison the `sortPending` comparator intends: ascending by dict
size. NOTE this is not what async.c:150-153 computes: the written comparator
casts the `SpecDocQueue **` that qsort passes directly to `SpecDocQueue *`
and compares reinterpreted array-slot bytes (see `sortPending_asWritten`
below, and C1). The intended dict-size form is kept here because the
selection machinery it feeds (`aiWorkerSelect`, used by C4) has its
properties proved independently of which order the sort produces. -/
def sortPending (qa qb : SpecDocQueue) : Int :=
  (dictSize qa.entries : Int) - (dictSize qb.entries : Int)

/-- The order on queue ids induced by the intended comparator in state `s`
(`cmp(a,b) <= 0` places `a` no later than `b`). -/
def specLE (s : AIQState) (a b : Nat) : Prop :=
  sortPending (getQ s a) (getQ s b) ≤ 0

instance (s : AIQState) : DecidableRel (specLE s) := fun _ _ =>
  inferInstanceAs (Decidable (_ ≤ _))

/-- Modelled from the spec: `array_del_fast` from util/arr.h (not in the
sources) removes index `i` by overwriting it with the tail element and
shrinking the array by one (fast-swap with the tail). -/
def array_del_fast {α : Type} (l : List α) (i : Nat) : List α :=
  match l.getLast? with
  | none => l
  | some x => (l.set i x).dropLast

/-- The selection step at the top of the worker loop (`aiThreadInit`): sort
the pending list with the comparator, pick the last queue, remove it by
fast-swap of the tail slot, swap in a fresh empty dict, record `nactive`,
and set the state to PROCESSING. The order used here is the intended
dict-size one; the written comparator orders by garbage instead (see C1),
but the invariant properties proved about this step (C4) hold for any order
since the sort only permutes the pending list. -/
def aiWorkerSelect (s : AIQState) : AIQState :=
  let sorted := s.pending.insertionSort (specLE s)
  match sorted.getLast? with
  | none => s
  | some qid =>
    let dq := getQ s qid
    { pending := array_del_fast sorted (sorted.length - 1),
      queues := qset s.queues qid
        { dq with
          entries := [], nactive := dictSize dq.entries,
          statePending := false, stateProcessing := true },
      procQ := some qid }

/-- The end-of-batch step of `indexBatch`: under the queue mutex, clear
PROCESSING and `nactive`; if new entries accumulated in the live dict,
set the state to PENDING and re-append the queue to the pending list, else
release the spec reference taken at submit time. -/
def indexBatchFinish (s : AIQState) : AIQState × List AEvent :=
  match s.procQ with
  | none => (s, [])
  | some qid =>
    let dq := getQ s qid
    let dq1 := { dq with stateProcessing := false, nactive := 0 }
    if dictSize dq1.entries ≠ 0 then
      ({ pending := s.pending ++ [qid],
         queues := qset s.queues qid
           { dq1 with statePending := true, stateProcessing := false },
         procQ := none }, [])
    else
      ({ s with queues := qset s.queues qid dq1, procQ := none },
        [AEvent.decrefSpec qid])

/-- The interleavings of the queue operations under the AsyncIndexQueue
mutex: a submission, the worker's selection, or the worker's end-of-batch
reinsertion. -/
inductive AIQStep (batchSize : Nat) : AIQState → AIQState → Prop
  | submit (s : AIQState) (spec : Nat) (kstr : String) (iia : Nat) :
      AIQStep batchSize s (AIQ_Submit batchSize s spec kstr iia).1
  | select (s : AIQState) : AIQStep batchSize s (aiWorkerSelect s)
  | finish (s : AIQState) : AIQStep batchSize s (indexBatchFinish s).1

/-- The worker's in-flight queue (if any) is PROCESSING and not PENDING. -/
def procQInv (s : AIQState) : Prop :=
  match s.procQ with
  | none => True
  | some q =>
    (getQ s q).stateProcessing = true ∧ (getQ s q).statePending = false

instance (s : AIQState) : Decidable (procQInv s) := by
  unfold procQInv
  cases s.procQ <;> exact inferInstance

theorem procQInv_iff (s : AIQState) :
    procQInv s ↔ ∀ q, s.procQ = some q →
      (getQ s q).stateProcessing = true ∧ (getQ s q).statePending = false := by
  unfold procQInv
  cases hpq : s.procQ with
  | none => simp
  | some q => simp

/-- The pending-list/state invariant of C4, strengthened with the record
wellformedness and the worker's in-flight queue facts needed to make it
inductive. -/
def pendingFlagInv (s : AIQState) : Prop :=
  (s.queues.map Prod.fst).Nodup ∧
  s.pending.Nodup ∧
  (∀ q ∈ s.pending, (getQ s q).statePending = true) ∧
  (∀ e ∈ s.queues, e.2.statePending = true → e.1 ∈ s.pending) ∧
  procQInv s

instance (s : AIQState) : Decidable (pendingFlagInv s) := by
  unfold pendingFlagInv
  exact inferInstance

theorem pendingFlagInv_mem_iff (s : AIQState) (hinv : pendingFlagInv s) :
    ∀ q, q ∈ s.pending ↔ (getQ s q).statePending = true := by
  intro q
  constructor
  · exact fun hm => hinv.2.2.1 q hm
  · intro hf
    cases hq : qlookup s.queues q with
    | none =>
      rw [getQ, hq] at hf
      simp [emptySDQ] at hf
    | some dq =>
      have hmem := qlookup_mem s.queues q dq hq
      apply hinv.2.2.2.1 (q, dq) hmem
      rw [getQ, hq] at hf
      exact hf

/-- C7: submitting a key already present in the spec queue's live dict
(with well-formed unique keys) leaves the entire AsyncIndexQueue state —
dict, pending list and queue state — unchanged, keeps exactly one dict
entry for the key, and the emitted events are exactly: retain the key
string (on entry), free the new record, release the new key string
reference. -/
theorem C7_duplicate_submit_dropped (batchSize : Nat) (s : AIQState)
    (spec : Nat) (kstr : String) (iia : Nat)
    (hwf : ((getQ s spec).entries.map Prod.fst).Nodup)
    (hdup : kstr ∈ (getQ s spec).entries.map Prod.fst) :
    (AIQ_Submit batchSize s spec kstr iia).1 = s ∧
    ((getQ s spec).entries.map Prod.fst).count kstr = 1 ∧
    (AIQ_Submit batchSize s spec kstr iia).2 =
      [AEvent.retainString kstr,
        AEvent.freeRid { kstr := kstr, iia := iia },
        AEvent.freeString kstr] := by
  have hadd : dictAdd (getQ s spec).entries kstr { kstr := kstr, iia := iia } =
      none := by
    unfold dictAdd
    rw [if_pos]
    rw [List.any_eq_true]
    obtain ⟨e, he, heq⟩ := List.mem_map.mp hdup
    exact ⟨e, he, by rw [heq]; exact beq_self_eq_true kstr⟩
  refine ⟨?_, ?_, ?_⟩
  · simp only [AIQ_Submit, hadd]
  · have h1 := List.nodup_iff_count_le_one.mp hwf kstr
    have h2 : 0 < ((getQ s spec).entries.map Prod.fst).count kstr :=
      List.count_pos_iff.mpr hdup
    omega
  · simp only [AIQ_Submit, hadd]

/-- Shorthand for a queued mutation record in the example states. -/
def ridOf (k : String) : RuleIndexableDocument := { kstr := k, iia := 0 }

/-- Example state for C7: spec 1's queue already holds key "k1". -/
def sDup : AIQState :=
  { pending := [1],
    queues := [(1, ⟨[("k1", ridOf "k1")], true, false, 0⟩)],
    procQ := none }

theorem C7_duplicate_submit_dropped_witness :
    (((getQ sDup 1).entries.map Prod.fst).Nodup ∧
      "k1" ∈ (getQ sDup 1).entries.map Prod.fst) ∧
    ((AIQ_Submit 3 sDup 1 "k1" 9).1 = sDup ∧
      ((getQ sDup 1).entries.map Prod.fst).count "k1" = 1 ∧
      (AIQ_Submit 3 sDup 1 "k1" 9).2 =
        [AEvent.retainString "k1",
          AEvent.freeRid { kstr := "k1", iia := 9 },
          AEvent.freeString "k1"]) :=
  ⟨⟨by decide, by decide⟩,
    C7_duplicate_submit_dropped 3 sDup 1 "k1" 9 (by decide) (by decide)⟩

theorem array_del_fast_last {α : Type} (l : List α) :
    array_del_fast l (l.length - 1) = l.dropLast := by
  unfold array_del_fast
  cases hg : l.getLast? with
  | none =>
    rw [List.getLast?_eq_none_iff] at hg
    subst hg
    rfl
  | some x =>
    calc (l.set (l.length - 1) x).dropLast
        = ((l.set (l.length - 1) x).take
            ((l.set (l.length - 1) x).length - 1)) := by
          rw [List.dropLast_eq_take]
      _ = (l.set (l.length - 1) x).take (l.length - 1) := by
          rw [List.length_set]
      _ = (l.take (l.length - 1)).set (l.length - 1) x := List.set_take
      _ = l.take (l.length - 1) := by
          apply List.set_eq_of_length_le
          rw [List.length_take]
          omega
      _ = l.dropLast := (List.dropLast_eq_take l).symm

/-- The `sortPending` comparator as actually written (async.c:150-153):
`qsort` at async.c:185 sorts an array of `SpecDocQueue *`, so the comparator
receives pointers INTO the pending array (`SpecDocQueue **`), but the code
casts them directly to `const SpecDocQueue *`. `dictSize(qa->entries)` then
dereferences reinterpreted bytes at the array slot, not the queue's dict:
the compared values are whatever those memory reads yield. The read is
modelled by an uninterpreted function `mem` from the queue occupying the
slot to the value the reinterpreted `dictSize` call returns; nothing
constrains `mem` to the queue's dict size. -/
def sortPending_asWritten (mem : Nat → Nat) (qa qb : Nat) : Int :=
  (mem qa : Int) - (mem qb : Int)

/-- The order induced on queue ids by the comparator as written, under the
memory reinterpretation `mem`. -/
def specLE_asWritten (mem : Nat → Nat) (a b : Nat) : Prop :=
  sortPending_asWritten mem a b ≤ 0

instance (mem : Nat → Nat) : DecidableRel (specLE_asWritten mem) :=
  fun _ _ => inferInstanceAs (Decidable (_ ≤ _))

/-- The worker's selection step with the sort order the written comparator
actually produces: identical to `aiWorkerSelect` except that the pending
list is ordered by the reinterpreted slot reads `mem`, not by dict size. -/
def aiWorkerSelect_asWritten (mem : Nat → Nat) (s : AIQState) : AIQState :=
  let sorted := s.pending.insertionSort (specLE_asWritten mem)
  match sorted.getLast? with
  | none => s
  | some qid =>
    let dq := getQ s qid
    { pending := array_del_fast sorted (sorted.length - 1),
      queues := qset s.queues qid
        { dq with
          entries := [], nactive := dictSize dq.entries,
          statePending := false, stateProcessing := true },
      procQ := some qid }

/-- Example state for C1: spec 1 has five pending documents, spec 2 one. -/
def sDeep : AIQState :=
  { pending := [1, 2],
    queues :=
      [(1, ⟨[("a1", ridOf "a1"), ("a2", ridOf "a2"), ("a3", ridOf "a3"),
        ("a4", ridOf "a4"), ("a5", ridOf "a5")], true, false, 0⟩),
       (2, ⟨[("b1", ridOf "b1")], true, false, 0⟩)],
    procQ := none }

/-- One possible outcome of the reinterpreted slot reads: the bytes at spec
1's slot compare larger. -/
def memA : Nat → Nat := fun q => if q = 1 then 7 else 3

/-- Another possible outcome of the same reads: the bytes at spec 2's slot
compare larger. -/
def memB : Nat → Nat := fun q => if q = 1 then 3 else 7

/-- C1 (evaluation of the code at the claim's own 5-vs-1 scenario): the
comparator as written orders the pending list by the reinterpreted
array-slot reads, not by dict size. Over the same state — spec 1 with five
queued documents, spec 2 with one — two possible values of those reads make
the selection pick different specs, and under the second the worker selects
the 1-document spec; so the code does not sort by dict size and does not
guarantee the claimed deepest-first selection. -/
theorem C1_comparator_type_confusion :
    dictSize (getQ sDeep 1).entries = 5 ∧
    dictSize (getQ sDeep 2).entries = 1 ∧
    (aiWorkerSelect_asWritten memA sDeep).procQ = some 1 ∧
    (aiWorkerSelect_asWritten memB sDeep).procQ = some 2 := by
  decide

theorem pendingFlagInv_submit (batchSize : Nat) (s : AIQState) (spec : Nat)
    (kstr : String) (iia : Nat) (hinv : pendingFlagInv s) :
    pendingFlagInv (AIQ_Submit batchSize s spec kstr iia).1 := by
  obtain ⟨hK, hN, hPF, hFP, hProc⟩ := hinv
  cases hadd : dictAdd (getQ s spec).entries kstr
      { kstr := kstr, iia := iia } with
  | none =>
    simp only [AIQ_Submit, hadd]
    exact ⟨hK, hN, hPF, hFP, hProc⟩
  | some d2 =>
    by_cases hc : (getQ s spec).statePending = false ∧
        (getQ s spec).stateProcessing = false
    · have hres : (AIQ_Submit batchSize s spec kstr iia).1 =
          { s with
            pending := s.pending ++ [spec],
            queues := qset s.queues spec
              { getQ s spec with entries := d2, statePending := true } } := by
        simp only [AIQ_Submit, hadd, if_pos hc]
      rw [hres]
      have hnotmem : spec ∉ s.pending := by
        intro hm
        have hflag := hPF spec hm
        rw [hflag] at hc
        exact absurd hc.1 (by decide)
      refine ⟨qset_keys_nodup s.queues spec _ hK, ?_, ?_, ?_, ?_⟩
      · exact List.nodup_append.mpr ⟨hN, List.nodup_singleton spec,
          fun x hx hx2 => hnotmem ((List.mem_singleton.mp hx2) ▸ hx)⟩
      · intro q hq
        rcases List.mem_append.mp hq with hm | hm
        · have hne : q ≠ spec := fun he => hnotmem (he ▸ hm)
          show ((qlookup (qset s.queues spec _) q).getD emptySDQ).statePending
            = true
          rw [qlookup_qset_ne s.queues spec q _ hne]
          exact hPF q hm
        · have he : q = spec := List.mem_singleton.mp hm
          subst he
          show ((qlookup (qset s.queues q _) q).getD emptySDQ).statePending
            = true
          rw [qlookup_qset_self]
          rfl
      · intro e he hflag
        rcases mem_qset s.queues spec _ e hK he with h1 | ⟨h2, h3⟩
        · rw [h1]
          exact List.mem_append_right _ (List.mem_singleton_self spec)
        · exact List.mem_append_left _ (hFP e h2 hflag)
      · rw [procQInv_iff]
        intro q hq
        dsimp only at hq
        have hold := (procQInv_iff s).mp hProc q hq
        have hne : q ≠ spec := by
          intro he
          rw [he] at hold
          rw [hold.1] at hc
          exact absurd hc.2 (by decide)
        show ((qlookup (qset s.queues spec _) q).getD emptySDQ).stateProcessing
            = true ∧
          ((qlookup (qset s.queues spec _) q).getD emptySDQ).statePending
            = false
        rw [qlookup_qset_ne s.queues spec q _ hne]
        exact hold
    · have hres : (AIQ_Submit batchSize s spec kstr iia).1 =
          { s with
            queues := qset s.queues spec
              { getQ s spec with entries := d2 } } := by
        simp only [AIQ_Submit, hadd, if_neg hc]
      rw [hres]
      refine ⟨qset_keys_nodup s.queues spec _ hK, hN, ?_, ?_, ?_⟩
      · intro q hq
        by_cases hne : q = spec
        · subst hne
          show ((qlookup (qset s.queues q _) q).getD emptySDQ).statePending
            = true
          rw [qlookup_qset_self]
          exact hPF q hq
        · show ((qlookup (qset s.queues spec _) q).getD emptySDQ).statePending
            = true
          rw [qlookup_qset_ne s.queues spec q _ hne]
          exact hPF q hq
      · intro e he hflag
        rcases mem_qset s.queues spec _ e hK he with h1 | ⟨h2, h3⟩
        · rw [h1] at hflag ⊢
          have hpend : (getQ s spec).statePending = true := hflag
          exact (pendingFlagInv_mem_iff s ⟨hK, hN, hPF, hFP, hProc⟩ spec).mpr
            hpend
        · exact hFP e h2 hflag
      · rw [procQInv_iff]
        intro q hq
        dsimp only at hq
        have hold := (procQInv_iff s).mp hProc q hq
        by_cases hne : q = spec
        · subst hne
          show ((qlookup (qset s.queues q _) q).getD emptySDQ).stateProcessing
              = true ∧
            ((qlookup (qset s.queues q _) q).getD emptySDQ).statePending
              = false
          rw [qlookup_qset_self]
          exact hold
        · show ((qlookup (qset s.queues spec _) q).getD emptySDQ).stateProcessing
              = true ∧
            ((qlookup (qset s.queues spec _) q).getD emptySDQ).statePending
              = false
          rw [qlookup_qset_ne s.queues spec q _ hne]
          exact hold

theorem pendingFlagInv_select (s : AIQState) (hinv : pendingFlagInv s) :
    pendingFlagInv (aiWorkerSelect s) := by
  obtain ⟨hK, hN, hPF, hFP, hProc⟩ := hinv
  cases hg : (s.pending.insertionSort (specLE s)).getLast? with
  | none =>
    simp only [aiWorkerSelect, hg]
    exact ⟨hK, hN, hPF, hFP, hProc⟩
  | some qid =>
    have hperm := List.perm_insertionSort (specLE s) s.pending
    have hNs : (s.pending.insertionSort (specLE s)).Nodup :=
      hperm.nodup_iff.mpr hN
    have hsplit : (s.pending.insertionSort (specLE s)).dropLast ++ [qid] =
        s.pending.insertionSort (specLE s) :=
      List.dropLast_append_getLast? qid hg
    have hqid_mem : qid ∈ s.pending :=
      hperm.subset (List.mem_of_getLast?_eq_some hg)
    have hqid_not_dl : qid ∉ (s.pending.insertionSort (specLE s)).dropLast := by
      intro hm
      have hnd2 : ((s.pending.insertionSort (specLE s)).dropLast ++
          [qid]).Nodup := by rw [hsplit]; exact hNs
      exact (List.nodup_append.mp hnd2).2.2 hm (List.mem_singleton_self qid)
    have hdl_sub : ∀ x ∈ (s.pending.insertionSort (specLE s)).dropLast,
        x ∈ s.pending := by
      intro x hx
      apply hperm.subset
      rw [← hsplit]
      exact List.mem_append_left _ hx
    have hmem_dl : ∀ x ∈ s.pending, x ≠ qid →
        x ∈ (s.pending.insertionSort (specLE s)).dropLast := by
      intro x hx hne
      have hxs : x ∈ s.pending.insertionSort (specLE s) := hperm.mem_iff.mpr hx
      rw [← hsplit] at hxs
      rcases List.mem_append.mp hxs with hm | hm
      · exact hm
      · exact absurd (List.mem_singleton.mp hm) hne
    have hres : aiWorkerSelect s =
        { pending := (s.pending.insertionSort (specLE s)).dropLast,
          queues := qset s.queues qid
            { getQ s qid with
              entries := [], nactive := dictSize (getQ s qid).entries,
              statePending := false, stateProcessing := true },
          procQ := some qid } := by
      simp only [aiWorkerSelect, hg]
      rw [array_del_fast_last]
    rw [hres]
    refine ⟨qset_keys_nodup s.queues qid _ hK, ?_, ?_, ?_, ?_⟩
    · exact hNs.sublist (List.dropLast_sublist _)
    · intro q hq
      have hne : q ≠ qid := fun he => hqid_not_dl (he ▸ hq)
      show ((qlookup (qset s.queues qid _) q).getD emptySDQ).statePending
        = true
      rw [qlookup_qset_ne s.queues qid q _ hne]
      exact hPF q (hdl_sub q hq)
    · intro e he hflag
      rcases mem_qset s.queues qid _ e hK he with h1 | ⟨h2, h3⟩
      · rw [h1] at hflag
        exact absurd hflag (by simp)
      · exact hmem_dl e.1 (hFP e h2 hflag) h3
    · rw [procQInv_iff]
      intro q hq
      dsimp only at hq
      have he : q = qid := by
        simpa using hq.symm
      subst he
      show ((qlookup (qset s.queues q _) q).getD emptySDQ).stateProcessing
          = true ∧
        ((qlookup (qset s.queues q _) q).getD emptySDQ).statePending
          = false
      rw [qlookup_qset_self]
      exact ⟨rfl, rfl⟩

theorem pendingFlagInv_finish (s : AIQState) (hinv : pendingFlagInv s) :
    pendingFlagInv (indexBatchFinish s).1 := by
  obtain ⟨hK, hN, hPF, hFP, hProc⟩ := hinv
  cases hpq : s.procQ with
  | none =>
    simp only [indexBatchFinish, hpq]
    exact ⟨hK, hN, hPF, hFP, hProc⟩
  | some qid =>
    have hqf := (procQInv_iff s).mp hProc qid hpq
    have hnotmem : qid ∉ s.pending := by
      intro hm
      have hflag := hPF qid hm
      rw [hflag] at hqf
      exact absurd hqf.2 (by decide)
    by_cases hsize : dictSize (getQ s qid).entries ≠ 0
    · have hres : (indexBatchFinish s).1 =
          { pending := s.pending ++ [qid],
            queues := qset s.queues qid
              { getQ s qid with
                stateProcessing := false, nactive := 0,
                statePending := true },
            procQ := none } := by
        simp only [indexBatchFinish, hpq, if_pos hsize]
      rw [hres]
      refine ⟨qset_keys_nodup s.queues qid _ hK, ?_, ?_, ?_, ?_⟩
      · exact List.nodup_append.mpr ⟨hN, List.nodup_singleton qid,
          fun x hx hx2 => hnotmem ((List.mem_singleton.mp hx2) ▸ hx)⟩
      · intro q hq
        rcases List.mem_append.mp hq with hm | hm
        · have hne : q ≠ qid := fun he => hnotmem (he ▸ hm)
          show ((qlookup (qset s.queues qid _) q).getD emptySDQ).statePending
            = true
          rw [qlookup_qset_ne s.queues qid q _ hne]
          exact hPF q hm
        · have he : q = qid := List.mem_singleton.mp hm
          subst he
          show ((qlookup (qset s.queues q _) q).getD emptySDQ).statePending
            = true
          rw [qlookup_qset_self]
          rfl
      · intro e he hflag
        rcases mem_qset s.queues qid _ e hK he with h1 | ⟨h2, h3⟩
        · rw [h1]
          exact List.mem_append_right _ (List.mem_singleton_self qid)
        · exact List.mem_append_left _ (hFP e h2 hflag)
      · rw [procQInv_iff]
        intro q hq
        dsimp only at hq
        exact Option.noConfusion hq
    · have hres : (indexBatchFinish s).1 =
          { s with
            queues := qset s.queues qid
              { getQ s qid with stateProcessing := false, nactive := 0 },
            procQ := none } := by
        simp only [indexBatchFinish, hpq, if_neg hsize]
      rw [hres]
      refine ⟨qset_keys_nodup s.queues qid _ hK, hN, ?_, ?_, ?_⟩
      · intro q hq
        have hne : q ≠ qid := fun he => hnotmem (he ▸ hq)
        show ((qlookup (qset s.queues qid _) q).getD emptySDQ).statePending
          = true
        rw [qlookup_qset_ne s.queues qid q _ hne]
        exact hPF q hq
      · intro e he hflag
        rcases mem_qset s.queues qid _ e hK he with h1 | ⟨h2, h3⟩
        · rw [h1] at hflag
          have : (getQ s qid).statePending = true := hflag
          rw [hqf.2] at this
          exact absurd this (by decide)
        · exact hFP e h2 hflag
      · rw [procQInv_iff]
        intro q hq
        dsimp only at hq
        exact Option.noConfusion hq

/-- C4: the pending-list invariant — a queue is in the global pending list
iff its state has PENDING set, and it appears at most once — is preserved by
every queue operation taken under the AsyncIndexQueue mutex: a submission,
the worker's selection, and the end-of-batch reinsertion. -/
theorem C4_pending_inv_preserved (batchSize : Nat) (s s2 : AIQState)
    (hinv : pendingFlagInv s) (hstep : AIQStep batchSize s s2) :
    pendingFlagInv s2 ∧
    (∀ q, q ∈ s2.pending ↔ (getQ s2 q).statePending = true) ∧
    s2.pending.Nodup := by
  have main : pendingFlagInv s2 := by
    cases hstep with
    | submit spec kstr iia =>
      exact pendingFlagInv_submit batchSize s spec kstr iia hinv
    | select => exact pendingFlagInv_select s hinv
    | finish => exact pendingFlagInv_finish s hinv
  exact ⟨main, pendingFlagInv_mem_iff s2 main, main.2.1⟩

theorem C4_pending_inv_preserved_witness :
    pendingFlagInv sDup ∧
    (pendingFlagInv (AIQ_Submit 3 sDup 2 "z" 0).1 ∧
      (∀ q, q ∈ (AIQ_Submit 3 sDup 2 "z" 0).1.pending ↔
        (getQ (AIQ_Submit 3 sDup 2 "z" 0).1 q).statePending = true) ∧
      (AIQ_Submit 3 sDup 2 "z" 0).1.pending.Nodup) :=
  ⟨by decide,
    C4_pending_inv_preserved 3 sDup _ (by decide)
      (AIQStep.submit sDup 2 "z" 0)⟩

/-- Events of one iteration of the `indexBatch` drain loop, towards the host
lock, the logger, the indexer and the allocator. -/
inductive BEvent where
  | hostLock : BEvent
  | hostUnlock : BEvent
  | logFailure (key : String) : BEvent
  | indexerAdd (key : String) : BEvent
  | actxFree (key : String) : BEvent
  | freeString (key : String) : BEvent
  | freeRid (key : String) : BEvent
  deriving DecidableEq, Repr

/-- One iteration of the drain loop in `indexBatch` over one dict entry:
lock the host; initialize the AddDocumentCtx (`initOk` tells whether
`SchemaRules_InitACTX` returns non-NULL for the key); on failure, log and
continue — without unlocking and without freeing; on success, unlock, hand
the context to the indexer (`addOk` tells whether `Indexer_Add` returns
REDISMODULE_OK; on failure the context is logged and freed), then release
the key string and free the record. -/
def indexBatchEntry (initOk addOk : String → Bool) (rid : RuleIndexableDocument) :
    List BEvent :=
  [BEvent.hostLock] ++
    (if initOk rid.kstr = false then
      [BEvent.logFailure rid.kstr]
    else
      [BEvent.hostUnlock, BEvent.indexerAdd rid.kstr] ++
        (if addOk rid.kstr = false then
          [BEvent.logFailure rid.kstr, BEvent.actxFree rid.kstr]
        else []) ++
        [BEvent.freeString rid.kstr, BEvent.freeRid rid.kstr])

/-- Net host-lock acquisitions minus releases in a trace. -/
def lockBalance : List BEvent → Int
  | [] => 0
  | BEvent.hostLock :: r => 1 + lockBalance r
  | BEvent.hostUnlock :: r => -1 + lockBalance r
  | _ :: r => lockBalance r

/-- C3 (evaluation of the code at a failing entry): when AddDocumentCtx
initialization fails for a dict entry, the iteration logs the failure and
continues, but — contrary to the claim — the host lock stays held (net lock
balance 1, no unlock event) and the queued record and retained key string
are never freed. For comparison, a succeeding entry leaves the lock balance
at 0 and frees both. -/
theorem C3_init_failure_keeps_lock_and_leaks :
    indexBatchEntry (fun _ => false) (fun _ => true) (ridOf "doc1") =
        [BEvent.hostLock, BEvent.logFailure "doc1"] ∧
    lockBalance (indexBatchEntry (fun _ => false) (fun _ => true)
        (ridOf "doc1")) = 1 ∧
    BEvent.hostUnlock ∉
      indexBatchEntry (fun _ => false) (fun _ => true) (ridOf "doc1") ∧
    BEvent.freeRid "doc1" ∉
      indexBatchEntry (fun _ => false) (fun _ => true) (ridOf "doc1") ∧
    BEvent.freeString "doc1" ∉
      indexBatchEntry (fun _ => false) (fun _ => true) (ridOf "doc1") ∧
    BEvent.logFailure "doc1" ∈
      indexBatchEntry (fun _ => false) (fun _ => true) (ridOf "doc1") ∧
    lockBalance (indexBatchEntry (fun _ => true) (fun _ => true)
        (ridOf "doc1")) = 0 ∧
    BEvent.freeRid "doc1" ∈
      indexBatchEntry (fun _ => true) (fun _ => true) (ridOf "doc1") ∧
    BEvent.freeString "doc1" ∈
      indexBatchEntry (fun _ => true) (fun _ => true) (ridOf "doc1") := by
  decide
